import Mathlib

/-!
Verification of linkedin_scrape_and_apply.py against its design document.

Shallow embedding conventions:
* Python strings are modelled as List Char (Str); literals are written with
  String.data.
* The Selenium browser session is modelled as explicit page data: each query
  the script issues is a field of a page/session structure, and each effectful
  action (click, send_keys) is recorded as an event in an event log.
* Library calls whose outputs the script only post-processes (sklearn's
  TfidfVectorizer row similarities, numpy's argsort) are modelled as data
  parameters constrained by their documented contracts in the theorems.
-/

namespace LinkedinHelper

/-- Python strings, modelled as lists of characters. -/
abbrev Str := List Char

/-- Python whitespace, as matched both by str.strip() and by the regex
whitespace class of re.sub in normalize (ASCII range). -/
def isWS (c : Char) : Bool :=
  c = ' ' || c = '\t' || c = '\n' || c = '\r' || c = '\x0b' || c = '\x0c'

/-- Python str.strip(): drop whitespace from both ends. -/
def pyStrip (s : Str) : Str :=
  ((s.dropWhile isWS).reverse.dropWhile isWS).reverse

/-- The substitution re.sub of a whitespace-plus pattern by a single space,
written as a single left-to-right pass: each maximal run of whitespace
characters becomes one space. The flag records whether we are inside a run
whose replacement space was already emitted. -/
def squeezeGo : Bool → Str → Str
  | _, [] => []
  | inRun, c :: cs =>
    if isWS c then
      if inRun then squeezeGo true cs else ' ' :: squeezeGo true cs
    else c :: squeezeGo false cs

/-- The whitespace-run substitution, starting outside a run. -/
def squeezeWS (s : Str) : Str := squeezeGo false s

/-- Source line 101: normalize(s) applies the whitespace-run substitution
to s.strip(). -/
def normalize (s : Str) : Str := squeezeWS (pyStrip s)

/-- The string does not begin with a whitespace character. -/
def HeadOK (l : Str) : Prop := ∀ c, l.head? = some c → isWS c = false

/-- The string does not end with a whitespace character. -/
def LastOK (l : Str) : Prop := ∀ c, l.getLast? = some c → isWS c = false

/-- Every whitespace character is a plain space and no two whitespace
characters are adjacent: the shape of normalize's output. -/
def WSCollapsed (l : Str) : Prop :=
  (∀ c ∈ l, isWS c = true → c = ' ') ∧
  List.Chain' (fun a b => isWS a = true → isWS b = false) l

theorem headOK_nil : HeadOK [] := by intro c h; simp at h

theorem headOK_dropWhile (l : Str) : HeadOK (l.dropWhile isWS) := by
  induction l with
  | nil => exact headOK_nil
  | cons c cs ih =>
    intro d hd
    by_cases h : isWS c
    · rw [List.dropWhile_cons_of_pos h] at hd
      exact ih d hd
    · rw [List.dropWhile_cons_of_neg h] at hd
      simp at hd
      subst hd
      simpa using h

theorem dropWhile_eq_self_of_headOK (l : Str) (h : HeadOK l) :
    l.dropWhile isWS = l := by
  cases l with
  | nil => rfl
  | cons c cs =>
    have hc : isWS c = false := h c rfl
    simp [List.dropWhile_cons, hc]

theorem squeezeWS_ne_nil (l : Str) (h : l ≠ []) : squeezeWS l ≠ [] := by
  cases l with
  | nil => exact absurd rfl h
  | cons c cs =>
    rw [squeezeWS, squeezeGo]
    by_cases hc : isWS c <;> simp [hc]

theorem squeezeWS_headOK (l : Str) (h : HeadOK l) : HeadOK (squeezeWS l) := by
  cases l with
  | nil => intro c hc; simp [squeezeWS, squeezeGo] at hc
  | cons c cs =>
    have hc : isWS c = false := h c rfl
    intro d hd
    rw [squeezeWS, squeezeGo] at hd
    simp [hc] at hd
    subst hd
    exact hc

/-- If the in-run pass erases the whole string, everything was whitespace. -/
theorem squeezeGo_true_eq_nil (l : Str) (h : squeezeGo true l = []) :
    ∀ x ∈ l, isWS x = true := by
  induction l with
  | nil => intro x hx; simp at hx
  | cons c cs ih =>
    intro x hx
    rw [squeezeGo] at h
    by_cases hc : isWS c
    · rw [if_pos hc, if_pos rfl] at h
      cases hx with
      | head => exact hc
      | tail _ hmem => exact ih h x hmem
    · rw [if_neg hc] at h
      simp at h

theorem getLast?_cons_of_ne_nil (a : Char) (l : Str) (h : l ≠ []) :
    (a :: l).getLast? = l.getLast? := by
  cases l with
  | nil => exact absurd rfl h
  | cons b m => exact List.getLast?_cons_cons

theorem getLast?_mem_of_ne_nil (l : Str) (h : l ≠ []) :
    ∃ x, l.getLast? = some x ∧ x ∈ l :=
  ⟨l.getLast h, List.getLast?_eq_getLast l h, List.getLast_mem h⟩

theorem lastOK_dropWhile (l : Str) (h : LastOK l) :
    LastOK (l.dropWhile isWS) := by
  induction l with
  | nil => exact h
  | cons c cs ih =>
    by_cases hc : isWS c
    · rw [List.dropWhile_cons_of_pos hc]
      apply ih
      intro d hd
      apply h
      have hcs : cs ≠ [] := by
        intro hnil
        rw [hnil] at hd
        simp at hd
      rw [getLast?_cons_of_ne_nil c cs hcs]
      exact hd
    · rw [List.dropWhile_cons_of_neg hc]
      exact h

theorem lastOK_squeezeGo (l : Str) : LastOK l → ∀ b, LastOK (squeezeGo b l) := by
  induction l with
  | nil => intro _ b c hc; cases b <;> simp [squeezeGo] at hc
  | cons c cs ih =>
    intro h b
    by_cases hc : isWS c
    · cases cs with
      | nil =>
        exfalso
        have := h c (by simp)
        rw [hc] at this
        exact Bool.true_eq_false.mp this
      | cons d ds =>
        have hlcs : LastOK (d :: ds) := fun e he => h e
          (by rw [getLast?_cons_of_ne_nil c _ (by simp)]; exact he)
        have hX : LastOK (squeezeGo true (d :: ds)) := ih hlcs true
        have hXne : squeezeGo true (d :: ds) ≠ [] := by
          intro hnil
          obtain ⟨x, hx1, hx2⟩ := getLast?_mem_of_ne_nil (d :: ds) (by simp)
          have hfalse := hlcs x hx1
          rw [squeezeGo_true_eq_nil _ hnil x hx2] at hfalse
          exact Bool.true_eq_false.mp hfalse
        rw [squeezeGo, if_pos hc]
        cases b with
        | true => rw [if_pos rfl]; exact hX
        | false =>
          rw [if_neg (by simp)]
          intro e he
          rw [getLast?_cons_of_ne_nil ' ' _ hXne] at he
          exact hX e he
    · rw [squeezeGo, if_neg hc]
      cases cs with
      | nil =>
        intro e he
        simp [squeezeGo] at he
        subst he
        simpa using hc
      | cons d ds =>
        have hlcs : LastOK (d :: ds) := fun e he => h e
          (by rw [getLast?_cons_of_ne_nil c _ (by simp)]; exact he)
        have hY : LastOK (squeezeGo false (d :: ds)) := ih hlcs false
        have hYne : squeezeGo false (d :: ds) ≠ [] := squeezeWS_ne_nil _ (by simp)
        intro e he
        rw [getLast?_cons_of_ne_nil c _ hYne] at he
        exact hY e he

theorem lastOK_squeezeWS (l : Str) (h : LastOK l) : LastOK (squeezeWS l) :=
  lastOK_squeezeGo l h false

theorem wsCollapsed_squeezeGo (l : Str) :
    WSCollapsed (squeezeGo false l) ∧ WSCollapsed (squeezeGo true l) ∧
      HeadOK (squeezeGo true l) := by
  induction l with
  | nil =>
    refine ⟨⟨?_, ?_⟩, ⟨?_, ?_⟩, ?_⟩ <;> simp [squeezeGo, HeadOK]
  | cons c cs ih =>
    obtain ⟨hF, hT, hTh⟩ := ih
    by_cases hc : isWS c
    · have hfalse : squeezeGo false (c :: cs) = ' ' :: squeezeGo true cs := by
        rw [squeezeGo, if_pos hc, if_neg (by simp)]
      have htrue : squeezeGo true (c :: cs) = squeezeGo true cs := by
        rw [squeezeGo, if_pos hc, if_pos rfl]
      refine ⟨?_, ?_, ?_⟩
      · rw [hfalse]
        constructor
        · intro d hd _
          cases hd with
          | head => rfl
          | tail _ hm => exact hT.1 d hm (by assumption)
        · rw [List.chain'_cons']
          exact ⟨fun y hy _ => hTh y hy, hT.2⟩
      · rw [htrue]; exact hT
      · rw [htrue]; exact hTh
    · have hfalse : squeezeGo false (c :: cs) = c :: squeezeGo false cs := by
        rw [squeezeGo, if_neg hc]
      have htrue : squeezeGo true (c :: cs) = c :: squeezeGo false cs := by
        rw [squeezeGo, if_neg hc]
      have hcol : WSCollapsed (c :: squeezeGo false cs) := by
        constructor
        · intro d hd hws
          cases hd with
          | head => exact absurd hws (by simpa using hc)
          | tail _ hm => exact hF.1 d hm hws
        · rw [List.chain'_cons']
          refine ⟨?_, hF.2⟩
          intro y _ hws
          exact absurd hws (by simpa using hc)
      refine ⟨?_, ?_, ?_⟩
      · rw [hfalse]; exact hcol
      · rw [htrue]; exact hcol
      · rw [htrue]
        intro d hd
        simp at hd
        subst hd
        simpa using hc

theorem wsCollapsed_squeezeWS (l : Str) : WSCollapsed (squeezeWS l) :=
  (wsCollapsed_squeezeGo l).1

theorem squeezeGo_true_eq_false_of_headOK (l : Str) (h : HeadOK l) :
    squeezeGo true l = squeezeGo false l := by
  cases l with
  | nil => rfl
  | cons c cs =>
    have hc : isWS c = false := h c rfl
    rw [squeezeGo, squeezeGo, if_neg (by simp [hc]), if_neg (by simp [hc])]

theorem squeezeWS_eq_self (l : Str) : WSCollapsed l → squeezeWS l = l := by
  rw [squeezeWS]
  induction l with
  | nil => intro _; rfl
  | cons c cs ih =>
    intro h
    obtain ⟨hmem, hchain⟩ := h
    have hcs : WSCollapsed cs := by
      refine ⟨fun d hd hws => hmem d (List.mem_cons_of_mem c hd) hws, ?_⟩
      rw [List.chain'_cons'] at hchain
      exact hchain.2
    by_cases hc : isWS c
    · have hc' : c = ' ' := hmem c (by simp) hc
      have hcs_head : HeadOK cs := by
        intro y hy
        rw [List.chain'_cons'] at hchain
        exact hchain.1 y hy hc
      rw [squeezeGo, if_pos hc, if_neg (by simp)]
      rw [squeezeGo_true_eq_false_of_headOK cs hcs_head, ih hcs, hc']
    · rw [squeezeGo, if_neg hc, ih hcs]

theorem pyStrip_eq_self (l : Str) (h1 : HeadOK l) (h2 : LastOK l) :
    pyStrip l = l := by
  rw [pyStrip, dropWhile_eq_self_of_headOK l h1]
  have hrev : HeadOK l.reverse := by
    intro c hc
    rw [List.head?_reverse] at hc
    exact h2 c hc
  rw [dropWhile_eq_self_of_headOK l.reverse hrev, List.reverse_reverse]

theorem headOK_pyStrip (l : Str) : HeadOK (pyStrip l) := by
  rw [pyStrip]
  intro c hc
  rw [List.head?_reverse] at hc
  obtain ⟨t, ht⟩ := List.dropWhile_suffix (l := (l.dropWhile isWS).reverse) isWS
  have h2 : ((l.dropWhile isWS).reverse).getLast? = some c := by
    rw [← ht, List.getLast?_append, hc]
    rfl
  rw [List.getLast?_reverse] at h2
  exact headOK_dropWhile l c h2

theorem lastOK_pyStrip (l : Str) : LastOK (pyStrip l) := by
  rw [pyStrip]
  intro c hc
  rw [List.getLast?_reverse] at hc
  exact headOK_dropWhile _ c hc

theorem headOK_normalize (s : Str) : HeadOK (normalize s) :=
  squeezeWS_headOK _ (headOK_pyStrip s)

theorem lastOK_normalize (s : Str) : LastOK (normalize s) :=
  lastOK_squeezeWS _ (lastOK_pyStrip s)

theorem wsCollapsed_normalize (s : Str) : WSCollapsed (normalize s) :=
  wsCollapsed_squeezeWS _

/-- C9: the Text Normalizer is idempotent: for every string s,
normalize (normalize s) = normalize s. -/
theorem normalize_idempotent (s : Str) : normalize (normalize s) = normalize s := by
  conv_lhs => rw [normalize]
  rw [pyStrip_eq_self _ (headOK_normalize s) (lastOK_normalize s)]
  exact squeezeWS_eq_self _ (wsCollapsed_normalize s)

/-- A job record as built by fetch_job_description: a Python dict with keys
url/title/company/description, later annotated with a score by the ranker. -/
structure Job where
  url : Str := []
  title : Str := []
  company : Str := []
  description : Str := []
  score : Option ℚ := none
deriving Repr, DecidableEq, Inhabited

/-- The page as seen by fetch_job_description: the text yielded by each
locator query the source issues (none = the find_element call raised, i.e.
no such element). descNodes i is the list of element texts matched by the
i-th of the five description selectors (find_elements returns a possibly
empty list and does not raise). -/
structure JobPage where
  h1Text : Option Str := none
  companyLink : Option Str := none
  companyFlavor : Option Str := none
  descNodes : Nat → List Str := fun _ => []
  jobDetails : Option Str := none

/-- Texts qualifying inside one selector strategy: each node's text is
stripped and kept when longer than 50 characters (source lines 199-203). -/
def qualTexts (nodes : List Str) : List Str :=
  (nodes.map pyStrip).filter (fun t => 50 < t.length)

/-- The selector cascade (source lines 197-207): starting at selector i with
rem selectors remaining, stop at the first selector contributing at least one
qualifying text (the source breaks on texts being non-empty). -/
def descScan (p : JobPage) : Nat → Nat → List Str
  | _, 0 => []
  | i, rem + 1 =>
    let ts := qualTexts (p.descNodes i)
    if ts ≠ [] then ts else descScan p (i + 1) rem

/-- The five description selectors of the source, in order. -/
def descTexts (p : JobPage) : List Str := descScan p 0 5

/-- fetch_job_description (source lines 158-221): best-effort extraction of
title, company and description from a job page; total (never raises), since
every locator failure is caught and degrades to an empty field. -/
def fetch_job_description (p : JobPage) (job_url : Str) : Job :=
  let title := match p.h1Text with
    | some t => pyStrip t
    | none => []
  let company := match p.companyLink with
    | some t => pyStrip t
    | none =>
      match p.companyFlavor with
      | some t => pyStrip t
      | none => []
  let texts := descTexts p
  let texts := if texts = [] then
      match p.jobDetails with
      | some t => [t]
      | none => []
    else texts
  let desc := pyStrip (List.intercalate ("\n".data) texts)
  { url := job_url, title := normalize title, company := normalize company,
    description := normalize desc, score := none }

/-- A string in the image of the Text Normalizer: no leading or trailing
whitespace and no two adjacent whitespace characters. -/
def NormalizedStr (l : Str) : Prop :=
  HeadOK l ∧ LastOK l ∧
  List.Chain' (fun a b => isWS a = true → isWS b = false) l

theorem normalizedStr_normalize (s : Str) : NormalizedStr (normalize s) :=
  ⟨headOK_normalize s, lastOK_normalize s, (wsCollapsed_normalize s).2⟩

theorem normalize_nil : normalize [] = [] := rfl

/-- The description field of the extractor, written out: the cascade result,
or the job-details fallback when the cascade yields nothing. -/
theorem fetch_description_eq (p : JobPage) (u : Str) :
    (fetch_job_description p u).description =
      normalize (pyStrip (List.intercalate ("\n".data)
        (if descTexts p = [] then
          (match p.jobDetails with | some t => [t] | none => [])
        else descTexts p))) := rfl

theorem descScan_eq_nil_of_all (p : JobPage) (rem : Nat) :
    ∀ i, (∀ j, j < rem → qualTexts (p.descNodes (i + j)) = []) →
      descScan p i rem = [] := by
  induction rem with
  | zero => intro i _; rw [descScan]
  | succ r ih =>
    intro i h
    rw [descScan]
    have h0 : qualTexts (p.descNodes i) = [] := by
      have := h 0 (Nat.succ_pos r)
      simpa using this
    simp only [h0]
    simp only [ne_eq, not_true_eq_false, if_false]
    apply ih
    intro j hj
    have := h (j + 1) (by omega)
    rwa [show i + (j + 1) = i + 1 + j by omega] at this

theorem descScan_eq_of_first (p : JobPage) (j : Nat) :
    ∀ i rem, j < rem → qualTexts (p.descNodes (i + j)) ≠ [] →
      (∀ m, m < j → qualTexts (p.descNodes (i + m)) = []) →
      descScan p i rem = qualTexts (p.descNodes (i + j)) := by
  induction j with
  | zero =>
    intro i rem hrem hne _
    cases rem with
    | zero => omega
    | succ r =>
      rw [descScan]
      simp only [Nat.add_zero] at hne
      simp [hne]
  | succ k ih =>
    intro i rem hrem hne hmin
    cases rem with
    | zero => omega
    | succ r =>
      rw [descScan]
      have h0 : qualTexts (p.descNodes i) = [] := by
        have := hmin 0 (Nat.succ_pos k)
        simpa using this
      simp only [h0]
      simp only [ne_eq, not_true_eq_false, if_false]
      rw [show i + (k + 1) = i + 1 + k by omega] at hne
      rw [ih (i + 1) r (by omega) hne ?_]
      · rw [show i + 1 + k = i + (k + 1) by omega]
      · intro m hm
        have := hmin (m + 1) (by omega)
        rwa [show i + (m + 1) = i + 1 + m by omega] at this

/-- C2: the Detail Extractor is a total function of the page (modelled
exceptions appear only as absent elements, which it tolerates, so it never
raises); title, organization and description each degrade to the empty
string when their locators find nothing; and each of the three text fields
has passed through the Text Normalizer, hence has no adjacent repeated
whitespace and no leading or trailing whitespace. The url field is returned
unchanged. -/
theorem fetch_job_description_total_normalized (p : JobPage) (job_url : Str) :
    (p.h1Text = none → (fetch_job_description p job_url).title = []) ∧
    (p.companyLink = none → p.companyFlavor = none →
      (fetch_job_description p job_url).company = []) ∧
    ((∀ i, qualTexts (p.descNodes i) = []) → p.jobDetails = none →
      (fetch_job_description p job_url).description = []) ∧
    NormalizedStr (fetch_job_description p job_url).title ∧
    NormalizedStr (fetch_job_description p job_url).company ∧
    NormalizedStr (fetch_job_description p job_url).description ∧
    (fetch_job_description p job_url).url = job_url := by
  refine ⟨?_, ?_, ?_, ?_, ?_, ?_, ?_⟩
  · intro h
    simp only [fetch_job_description, h]
    exact normalize_nil
  · intro h1 h2
    simp only [fetch_job_description, h1, h2]
    exact normalize_nil
  · intro hq hd
    have hscan : descTexts p = [] := by
      rw [descTexts]
      exact descScan_eq_nil_of_all p 5 0 (fun j _ => hq (0 + j))
    rw [fetch_description_eq, hscan, hd, if_pos rfl]
    exact normalize_nil
  · exact normalizedStr_normalize _
  · exact normalizedStr_normalize _
  · exact normalizedStr_normalize _
  · rfl

/-- Witness: on the empty page all three text fields come back empty. -/
theorem fetch_job_description_total_normalized_witness :
    (fetch_job_description {} ("u".data)).title = [] ∧
    (fetch_job_description {} ("u".data)).company = [] ∧
    (fetch_job_description {} ("u".data)).description = [] := by
  obtain ⟨h1, h2, h3, _⟩ := fetch_job_description_total_normalized {} ("u".data)
  exact ⟨h1 rfl, h2 rfl rfl, h3 (fun _ => rfl) rfl⟩

/-- Modelled from the claim's wording, for comparison (C7): stop at the first
selector that yields any matching ELEMENTS, whether or not any of their texts
qualifies by exceeding 50 characters. -/
def descScanClaim (p : JobPage) : Nat → Nat → List Str
  | _, 0 => []
  | i, rem + 1 =>
    if p.descNodes i ≠ [] then qualTexts (p.descNodes i)
    else descScanClaim p (i + 1) rem

/-- A page whose first description selector matches one short-text element
and whose second selector matches one long-text element. -/
def shortThenLongPage : JobPage :=
  { descNodes := fun i =>
      if i = 0 then ["short text".data]
      else if i = 1 then
        ["This is a sufficiently long job description text, well over fifty characters long.".data]
      else [] }

/-- C7 counterexample: the first selector yields matching elements but no
qualifying text; the claim as stated then forbids trying further strategies,
making the description empty (no job-details container here); but the code
only stops at the first selector with qualifying TEXT and takes the second
selector's text, producing a non-empty description. -/
theorem descCascade_counterexample :
    descScanClaim shortThenLongPage 0 5 = [] ∧
    descTexts shortThenLongPage ≠ [] ∧
    (fetch_job_description shortThenLongPage []).description ≠ [] := by
  refine ⟨by decide, by decide, by decide⟩

/-- C7 amended: the cascade stops at the first selector yielding at least one
QUALIFYING text (stripped length over 50 characters), collects all qualifying
texts of that selector joined by newlines, and only when no selector yields
qualifying text falls back to the single job-details container when present,
else the description is empty. -/
theorem descCascade_amended (p : JobPage) (u : Str) :
    (∀ j, j < 5 → qualTexts (p.descNodes j) ≠ [] →
      (∀ m, m < j → qualTexts (p.descNodes m) = []) →
      (fetch_job_description p u).description =
        normalize (pyStrip (List.intercalate ("\n".data)
          (qualTexts (p.descNodes j))))) ∧
    ((∀ j, j < 5 → qualTexts (p.descNodes j) = []) →
      (fetch_job_description p u).description =
        (match p.jobDetails with
          | some t => normalize (pyStrip t)
          | none => [])) := by
  constructor
  · intro j hj hne hmin
    have hscan : descTexts p = qualTexts (p.descNodes j) := by
      rw [descTexts]
      have := descScan_eq_of_first p j 0 5 hj (by simpa using hne)
        (fun m hm => by simpa using hmin m hm)
      simpa using this
    rw [fetch_description_eq, hscan, if_neg hne]
  · intro hq
    have hscan : descTexts p = [] := by
      rw [descTexts]
      exact descScan_eq_nil_of_all p 5 0 (fun j hjr => hq (0 + j) (by omega))
    rw [fetch_description_eq, hscan, if_pos rfl]
    cases hd : p.jobDetails with
    | some t =>
      have h1 : List.intercalate ("\n".data) [t] = t := by
        simp [List.intercalate]
      rw [h1]
    | none => exact normalize_nil

/-- Witness for the amended C7 at a concrete page: the second selector is the
first with qualifying text and supplies the description. -/
theorem descCascade_amended_witness :
    (fetch_job_description shortThenLongPage []).description =
      normalize (pyStrip (List.intercalate ("\n".data)
        (qualTexts (shortThenLongPage.descNodes 1)))) :=
  (descCascade_amended shortThenLongPage []).1 1 (by decide) (by decide)
    (by decide)

/-! ## Similarity Ranker (source lines 224-242)

The script builds a corpus (resume first, then one document per job), runs
sklearn's TfidfVectorizer over it, computes the dot products of the
L2-normalized job rows against the resume row, and post-processes with
np.argsort. The vectorizer's similarity outputs and argsort's permutation
are data parameters here, constrained in the theorems by their documented
contracts. -/

/-- The document of one job (source line 225): its description, or, when the
description is the empty (falsy) string, its title and company. -/
def jobDoc (j : Job) : Str :=
  if j.description ≠ [] then j.description
  else j.title ++ (" ".data) ++ j.company

/-- Source lines 227-228: documents blank after stripping are replaced by a
single space so the vectorizer never sees an empty row. -/
def padDoc (d : Str) : Str := if pyStrip d = [] then " ".data else d

/-- The corpus of source lines 225-228: resume first, then the job docs,
all padded. -/
def buildDocs (resume_text : Str) (jobs : List Job) : List Str :=
  (resume_text :: jobs.map jobDoc).map padDoc

/-- Python list slicing l[:k]: the first k elements for non-negative k, all
but the last -k elements (clamped at zero) for negative k. -/
def pySliceTo {α : Type} (l : List α) (k : Int) : List α :=
  l.take (if 0 ≤ k then k.toNat else l.length - (-k).toNat)

/-- The contract of ranked_idx = np.argsort(-sims) (source line 235): a
permutation of the row indices along which sims is non-increasing. numpy's
default sort kind documents no stability guarantee, so any such permutation
models the call. -/
def ArgsortSpec (sims : List ℚ) (perm : List Nat) : Prop :=
  perm.Perm (List.range sims.length) ∧
  List.Sorted (fun i k => sims.getD k 0 ≤ sims.getD i 0) perm

/-- rank_jobs_by_similarity (source lines 224-242), given the similarity
vector sims of the jobs against the resume and the argsort output: the loop
over ranked_idx[:top_k] copies each job dict and attaches its score. -/
def rank_jobs_by_similarity (jobs : List Job) (top_k : Int)
    (sims : List ℚ) (ranked_idx : List Nat) : List Job :=
  (pySliceTo ranked_idx top_k).map (fun idx =>
    { jobs.getD idx default with score := some (sims.getD idx 0) })

/-- Determinism of the vectorizer: equal documents of the same fitted corpus
receive equal rows, hence equal similarities against the resume row. -/
def SimsRowDeterministic (resume_text : Str) (jobs : List Job)
    (sims : List ℚ) : Prop :=
  ∀ i k, i < jobs.length → k < jobs.length →
    (buildDocs resume_text jobs).getD (i + 1) [] =
      (buildDocs resume_text jobs).getD (k + 1) [] →
    sims.getD i 0 = sims.getD k 0

theorem buildDocs_getD (resume_text : Str) (jobs : List Job) (i : Nat)
    (hi : i < jobs.length) :
    (buildDocs resume_text jobs).getD (i + 1) [] =
      padDoc (jobDoc (jobs.getD i default)) := by
  rw [buildDocs, List.getD_eq_getElem?_getD, List.getElem?_map,
    List.getElem?_cons_succ, List.getElem?_map, List.getElem?_eq_getElem hi]
  simp [List.getD_eq_getElem?_getD, List.getElem?_eq_getElem hi]

theorem rank_sorted_of_argsort (jobs : List Job) (top_k : Int)
    (sims : List ℚ) (ranked_idx : List Nat)
    (hsorted : List.Sorted (fun i k => sims.getD k 0 ≤ sims.getD i 0)
      ranked_idx) :
    List.Sorted (fun a b => b.score.getD 0 ≤ a.score.getD 0)
      (rank_jobs_by_similarity jobs top_k sims ranked_idx) := by
  rw [rank_jobs_by_similarity]
  apply List.pairwise_map.mpr
  have hsub2 : (pySliceTo ranked_idx top_k).Sublist ranked_idx :=
    List.take_sublist _ _
  have hsub : List.Pairwise (fun i k => sims.getD k 0 ≤ sims.getD i 0)
      (pySliceTo ranked_idx top_k) :=
    List.Pairwise.sublist hsub2 hsorted
  exact hsub.imp (fun h => h)

/-- C3 amended: with sims of the jobs' length and ranked_idx a valid argsort
result, rank returns min(topK, number of jobs) records for non-negative
topK, ordered by non-increasing score; it returns the empty sequence
whenever jobs is empty (for any topK) and whenever topK = 0; but for
negative topK, Python slice semantics keep all but the last -topK entries
(clamped at zero) rather than returning the empty sequence. -/
theorem rank_length_and_order (jobs : List Job) (top_k : Int)
    (sims : List ℚ) (ranked_idx : List Nat)
    (hlen : sims.length = jobs.length)
    (hspec : ArgsortSpec sims ranked_idx) :
    (0 ≤ top_k →
      (rank_jobs_by_similarity jobs top_k sims ranked_idx).length =
        min top_k.toNat jobs.length) ∧
    (jobs = [] → rank_jobs_by_similarity jobs top_k sims ranked_idx = []) ∧
    (top_k = 0 → rank_jobs_by_similarity jobs top_k sims ranked_idx = []) ∧
    (top_k < 0 →
      (rank_jobs_by_similarity jobs top_k sims ranked_idx).length =
        jobs.length - (-top_k).toNat) ∧
    List.Sorted (fun a b => b.score.getD 0 ≤ a.score.getD 0)
      (rank_jobs_by_similarity jobs top_k sims ranked_idx) := by
  have hplen : ranked_idx.length = jobs.length := by
    have := hspec.1.length_eq
    simpa [List.length_range, hlen] using this
  refine ⟨?_, ?_, ?_, ?_, rank_sorted_of_argsort _ _ _ _ hspec.2⟩
  · intro h
    simp only [rank_jobs_by_similarity, List.length_map, pySliceTo,
      if_pos h, List.length_take]
    rw [hplen]
  · intro h
    subst h
    have : ranked_idx = [] := by
      simpa using List.length_eq_zero.mp (by simpa using hplen)
    subst this
    simp [rank_jobs_by_similarity, pySliceTo]
  · intro h
    subst h
    simp [rank_jobs_by_similarity, pySliceTo]
  · intro h
    simp only [rank_jobs_by_similarity, List.length_map, pySliceTo,
      if_neg (by omega : ¬ (0 : Int) ≤ top_k), List.length_take]
    rw [hplen]
    exact min_eq_left (Nat.sub_le _ _)

/-- Witness for the amended C3 at concrete inputs. -/
theorem rank_length_and_order_witness :
    (rank_jobs_by_similarity [{ url := "a".data }] 3 [0] [0]).length =
      min (3 : Int).toNat 1 :=
  (rank_length_and_order [{ url := "a".data }] 3 [0] [0] rfl
    ⟨by decide, by decide⟩).1 (by decide)

/-- Two jobs with identical documents but distinct urls. -/
def jobA : Job := { url := "a".data, description := "doc text".data }

/-- Second of the two jobs with identical documents. -/
def jobB : Job := { url := "b".data, description := "doc text".data }

/-- C3 counterexample: with two jobs, topK = -1 and a valid argsort result,
rank returns one record, not the empty sequence the claim demands for every
topK ≤ 0 (Python slicing keeps all but the last element). -/
theorem rank_negative_topK_counterexample :
    ArgsortSpec [0, 0] [0, 1] ∧
    ([0, 0] : List ℚ).length = [jobA, jobB].length ∧
    (rank_jobs_by_similarity [jobA, jobB] (-1) [0, 0] [0, 1]).length = 1 := by
  exact ⟨⟨by decide, by decide⟩, rfl, rfl⟩

/-- C5 amended: ranking against identical job records (identical documents)
under a deterministic vectorizer yields equal scores throughout, every
returned record is the common job carrying the common score, and the output
is sorted by non-increasing score; but the original order is not guaranteed,
because np.argsort is invoked with its default non-stable sort kind. -/
theorem rank_identical_docs_equal_scores (resume_text : Str) (j0 : Job)
    (jobs : List Job) (top_k : Int) (sims : List ℚ) (ranked_idx : List Nat)
    (hlen : sims.length = jobs.length)
    (hspec : ArgsortSpec sims ranked_idx)
    (hdet : SimsRowDeterministic resume_text jobs sims)
    (hjobs : ∀ j ∈ jobs, j = j0) :
    (∀ i k, i < jobs.length → k < jobs.length →
      sims.getD i 0 = sims.getD k 0) ∧
    (∀ r ∈ rank_jobs_by_similarity jobs top_k sims ranked_idx,
      { r with score := none } = { j0 with score := none } ∧
      r.score = some (sims.getD 0 0)) := by
  have hgetD : ∀ i, i < jobs.length → jobs.getD i default = j0 := by
    intro i hi
    rw [List.getD_eq_getElem?_getD, List.getElem?_eq_getElem hi]
    exact hjobs _ (List.getElem_mem hi)
  have hequal : ∀ i k, i < jobs.length → k < jobs.length →
      sims.getD i 0 = sims.getD k 0 := by
    intro i k hi hk
    apply hdet i k hi hk
    rw [buildDocs_getD _ _ i hi, buildDocs_getD _ _ k hk, hgetD i hi, hgetD k hk]
  refine ⟨hequal, ?_⟩
  intro r hr
  rw [rank_jobs_by_similarity] at hr
  obtain ⟨idx, hidx, rfl⟩ := List.mem_map.mp hr
  have hidx_mem : idx ∈ ranked_idx :=
    (List.take_sublist _ _).mem hidx
  have hidx_lt : idx < jobs.length := by
    have := (hspec.1.mem_iff).mp hidx_mem
    rw [List.mem_range, hlen] at this
    exact this
  constructor
  · rw [hgetD idx hidx_lt]
  · show some (sims.getD idx 0) = some (sims.getD 0 0)
    rw [hequal idx 0 hidx_lt (by omega)]

/-- Witness for the amended C5 at concrete inputs: two identical jobs, a
valid (tie-reversing) argsort, one concrete returned record checked. -/
theorem rank_identical_docs_equal_scores_witness :
    { { jobA with score := some 0 } with score := none } =
      { jobA with score := none } ∧
    Job.score { jobA with score := some 0 } =
      some (([0, 0] : List ℚ).getD 0 0) :=
  (rank_identical_docs_equal_scores [] jobA [jobA, jobA] 10 [0, 0] [1, 0]
    rfl ⟨by decide, by decide⟩
    (by intro i k _ _ _
        rcases i with _ | (_ | i) <;> rcases k with _ | (_ | k) <;> rfl)
    (by decide)).2 { jobA with score := some 0 } (by decide)

/-- C5 counterexample: a ranking call on two jobs with identical documents
(distinct urls), a similarity vector that is constant as determinism
requires, and a valid argsort permutation of the tied indices that reverses
them: the output lists the jobs in reversed order, so the code does not
guarantee that ties preserve the original order (np.argsort's default kind
is not stable). -/
theorem rank_stability_counterexample :
    ArgsortSpec [0, 0] [1, 0] ∧
    SimsRowDeterministic [] [jobA, jobB] [0, 0] ∧
    (rank_jobs_by_similarity [jobA, jobB] 10 [0, 0] [1, 0]).map Job.url =
      [jobB.url, jobA.url] ∧
    [jobB.url, jobA.url] ≠ ([jobA, jobB]).map Job.url := by
  refine ⟨⟨by decide, by decide⟩, ?_, by decide, by decide⟩
  intro i k _ _ _
  have hz : ∀ n, ([0, 0] : List ℚ).getD n 0 = 0 := by
    intro n
    rcases n with _ | (_ | n) <;> rfl
  rw [hz i, hz k]

/-! ## Frame property of the ranker (C10)

To make the no-mutation claim observable, the ranking loop is restated with
the heap of job dicts explicit: each dict lives at an address, jobs are a
list of addresses, j.copy() allocates a fresh address, and the score
assignment writes through the copy's address only. -/

/-- j.copy(): allocate a fresh address holding the same record. -/
def copyJob (heap : List Job) (a : Nat) : List Job × Nat :=
  (heap ++ [heap.getD a default], heap.length)

/-- j_copy[score-key] = v: mutate the record at address a. -/
def setJobScore (heap : List Job) (a : Nat) (v : ℚ) : List Job :=
  heap.set a { heap.getD a default with score := some v }

/-- The ranking loop of source lines 236-241 with the dict heap explicit:
for each index in ranked_idx[:top_k], read the job's address, copy the
record, set the score on the copy, and collect the copy's address. -/
def rankLoopHeap (jobAddrs : List Nat) (sims : List ℚ) :
    List Nat → List Job → List Job × List Nat
  | [], heap => (heap, [])
  | idx :: rest, heap =>
    let a := jobAddrs.getD idx 0
    let hc := copyJob heap a
    let heap2 := setJobScore hc.1 hc.2 (sims.getD idx 0)
    ((rankLoopHeap jobAddrs sims rest heap2).1,
      hc.2 :: (rankLoopHeap jobAddrs sims rest heap2).2)

/-- rank_jobs_by_similarity with the heap explicit. -/
def rank_jobs_heap (jobAddrs : List Nat) (sims : List ℚ)
    (ranked_idx : List Nat) (top_k : Int) (heap : List Job) :
    List Job × List Nat :=
  rankLoopHeap jobAddrs sims (pySliceTo ranked_idx top_k) heap

theorem heap2_getD_lt (heap : List Job) (x y : Job) (i : Nat)
    (hi : i < heap.length) :
    ((heap ++ [x]).set heap.length y).getD i default =
      heap.getD i default := by
  rw [List.getD_eq_getElem?_getD,
    List.getElem?_set_ne (by omega : heap.length ≠ i),
    ← List.getD_eq_getElem?_getD, List.getD_append _ _ _ i hi]

theorem rankLoopHeap_frame (jobAddrs : List Nat) (sims : List ℚ) :
    ∀ idxs heap,
      (∀ i, i < heap.length →
        ((rankLoopHeap jobAddrs sims idxs heap).1).getD i default =
          heap.getD i default) ∧
      (∀ a ∈ (rankLoopHeap jobAddrs sims idxs heap).2, heap.length ≤ a) := by
  intro idxs
  induction idxs with
  | nil =>
    intro heap
    refine ⟨fun i _ => rfl, ?_⟩
    intro a ha
    simp [rankLoopHeap] at ha
  | cons idx rest ih =>
    intro heap
    have hstep : rankLoopHeap jobAddrs sims (idx :: rest) heap =
        ((rankLoopHeap jobAddrs sims rest
            (setJobScore (copyJob heap (jobAddrs.getD idx 0)).1
              (copyJob heap (jobAddrs.getD idx 0)).2 (sims.getD idx 0))).1,
          (copyJob heap (jobAddrs.getD idx 0)).2 ::
            (rankLoopHeap jobAddrs sims rest
              (setJobScore (copyJob heap (jobAddrs.getD idx 0)).1
                (copyJob heap (jobAddrs.getD idx 0)).2 (sims.getD idx 0))).2) :=
      rfl
    set heap2 := setJobScore (copyJob heap (jobAddrs.getD idx 0)).1
      (copyJob heap (jobAddrs.getD idx 0)).2 (sims.getD idx 0) with hh2
    have hlen2 : heap2.length = heap.length + 1 := by
      rw [hh2, setJobScore, copyJob, List.length_set]
      simp
    obtain ⟨ih1, ih2⟩ := ih heap2
    constructor
    · intro i hi
      rw [hstep]
      have h1 := ih1 i (by omega)
      dsimp only at h1 ⊢
      rw [h1, hh2, setJobScore, copyJob]
      exact heap2_getD_lt heap _ _ i hi
    · intro a ha
      rw [hstep] at ha
      rcases List.mem_cons.mp ha with h | h
      · rw [h, copyJob]
      · have := ih2 a h
        omega

/-- C10: the ranker does not mutate its input job dicts: every heap address
that existed before the call holds the same record afterwards (the derived
score is written only to fresh copy addresses, which all lie beyond the
original heap). -/
theorem rank_does_not_mutate_inputs (jobAddrs : List Nat) (sims : List ℚ)
    (ranked_idx : List Nat) (top_k : Int) (heap : List Job) :
    (∀ i, i < heap.length →
      ((rank_jobs_heap jobAddrs sims ranked_idx top_k heap).1).getD i default =
        heap.getD i default) ∧
    (∀ a ∈ (rank_jobs_heap jobAddrs sims ranked_idx top_k heap).2,
      heap.length ≤ a) :=
  rankLoopHeap_frame jobAddrs sims (pySliceTo ranked_idx top_k) heap

/-- Witness for C10 at concrete inputs: one job, one copy made, original
record untouched. -/
theorem rank_does_not_mutate_inputs_witness :
    ((rank_jobs_heap [0] [1] [0] 5 [jobA]).1).getD 0 default =
      ([jobA]).getD 0 default :=
  (rank_does_not_mutate_inputs [0] [1] [0] 5 [jobA]).1 0 (by decide)

/-! ## Link Harvester (source lines 132-156) -/

/-- Prefix test used by the substring test. -/
def strStartsWith : Str → Str → Bool
  | _, [] => true
  | [], _ :: _ => false
  | c :: cs, p :: ps => c = p && strStartsWith cs ps

/-- Substring test: pat occurs contiguously in hay (Python: pat in hay). -/
def strContains : Str → Str → Bool
  | [], pat => strStartsWith [] pat
  | c :: rest, pat => strStartsWith (c :: rest) pat || strContains rest pat

/-- href.split at the first question mark, first component (source line 144:
the query string is stripped to canonicalize the link). -/
def cleanLink (href : Str) : Str := href.takeWhile (fun c => c ≠ '?')

/-- Insertion into the OrderedDict of source line 144: a duplicate leaves the
dict unchanged (Python dict assignment to an existing key keeps its
position), a new link is appended. -/
def insertLink (links : List Str) (u : Str) : List Str :=
  if u ∈ links then links else links ++ [u]

/-- One anchor inspection of source lines 140-146 (without the mid-scan
cutoff): if the href is present, non-empty (Python truthiness) and contains
the jobs-view pattern, insert its query-stripped form. -/
def harvestStep (links : List Str) : Option Str → List Str
  | some href =>
    if href ≠ [] ∧ strContains href ("/jobs/view/".data) = true then
      insertLink links (cleanLink href)
    else links
  | none => links

theorem harvestStep_none (links : List Str) : harvestStep links none = links :=
  rfl

theorem harvestStep_some (links : List Str) (href : Str) :
    harvestStep links (some href) =
      if href ≠ [] ∧ strContains href ("/jobs/view/".data) = true then
        insertLink links (cleanLink href)
      else links := rfl

/-- Folding harvestStep over a whole anchor list. -/
def harvestFrom (links : List Str) (anchors : List (Option Str)) : List Str :=
  anchors.foldl harvestStep links

/-- The first-seen de-duplicated, query-stripped collection of the
qualifying job links of one anchor list: the reference result of one full
uninterrupted scan. -/
def harvestLinks (anchors : List (Option Str)) : List Str :=
  harvestFrom [] anchors

/-- The inner anchor loop of source lines 140-146 as executed, with the
mid-scan cutoff: after each insertion, stop as soon as max_links is
reached. -/
def scanAnchors (max_links : Nat) : List (Option Str) → List Str → List Str
  | [], links => links
  | none :: rest, links => scanAnchors max_links rest links
  | some href :: rest, links =>
    if href ≠ [] ∧ strContains href ("/jobs/view/".data) = true then
      if max_links ≤ (insertLink links (cleanLink href)).length then
        insertLink links (cleanLink href)
      else scanAnchors max_links rest (insertLink links (cleanLink href))
    else scanAnchors max_links rest links

/-- The environment of one harvesting run: the hrefs of the anchors found at
each loop iteration (none = anchor without href attribute), the page height
observed after the scroll of each iteration, and the height read before the
loop (source line 135). -/
structure ScrollEnv where
  anchors : Nat → List (Option Str)
  height : Nat → Int
  startHeight : Int

/-- The while loop of source lines 137-155, fuelled: none means the fuel ran
out while the loop still wanted to iterate (with ever-growing heights and
too few links the source loop need not terminate). -/
def scrollLoop (env : ScrollEnv) (max_links : Nat) :
    Nat → List Str → Int → Nat → Nat → Option (List Str)
  | 0, links, _, tries, _ =>
    if links.length < max_links ∧ tries < 20 then none else some links
  | fuel + 1, links, last_height, tries, i =>
    if links.length < max_links ∧ tries < 20 then
      if env.height i = last_height then
        scrollLoop env max_links fuel
          (scanAnchors max_links (env.anchors i) links)
          last_height (tries + 1) (i + 1)
      else
        scrollLoop env max_links fuel
          (scanAnchors max_links (env.anchors i) links)
          (env.height i) 0 (i + 1)
    else some links

/-- scroll_container_collect_links (source lines 132-156). -/
def scroll_container_collect_links (env : ScrollEnv) (max_links : Nat)
    (fuel : Nat) : Option (List Str) :=
  scrollLoop env max_links fuel [] env.startHeight 0 0

theorem insertLink_length_le (l : List Str) (u : Str) :
    (insertLink l u).length ≤ l.length + 1 := by
  rw [insertLink]
  split
  · omega
  · simp

theorem length_le_insertLink (l : List Str) (u : Str) :
    l.length ≤ (insertLink l u).length := by
  rw [insertLink]
  split
  · exact le_refl _
  · simp

theorem mem_insertLink_self (l : List Str) (u : Str) : u ∈ insertLink l u := by
  rw [insertLink]
  split
  · assumption
  · simp

theorem mem_insertLink_of_mem (l : List Str) (u x : Str) (h : x ∈ l) :
    x ∈ insertLink l u := by
  rw [insertLink]
  split
  · exact h
  · simp [h]

theorem insertLink_eq_of_mem (l : List Str) (u : Str) (h : u ∈ l) :
    insertLink l u = l := if_pos h

theorem insertLink_nodup (l : List Str) (u : Str) (h : l.Nodup) :
    (insertLink l u).Nodup := by
  rw [insertLink]
  split
  · exact h
  · rw [List.nodup_append]
    refine ⟨h, List.nodup_singleton u, ?_⟩
    intro x hx hxu
    rw [List.mem_singleton] at hxu
    subst hxu
    exact absurd hx (by assumption)

theorem harvestStep_length_le (links : List Str) (a : Option Str) :
    (harvestStep links a).length ≤ links.length + 1 := by
  rcases a with _ | href
  · rw [harvestStep_none]; omega
  · rw [harvestStep_some]
    split
    · exact insertLink_length_le _ _
    · omega

theorem length_le_harvestStep (links : List Str) (a : Option Str) :
    links.length ≤ (harvestStep links a).length := by
  rcases a with _ | href
  · exact le_refl _
  · rw [harvestStep_some]
    split
    · exact length_le_insertLink _ _
    · exact le_refl _

theorem harvestFrom_cons (links : List Str) (a : Option Str)
    (as : List (Option Str)) :
    harvestFrom links (a :: as) = harvestFrom (harvestStep links a) as := rfl

theorem length_le_harvestFrom :
    ∀ (as : List (Option Str)) (links : List Str),
      links.length ≤ (harvestFrom links as).length := by
  intro as
  induction as with
  | nil => intro links; exact le_refl _
  | cons a rest ih =>
    intro links
    rw [harvestFrom_cons]
    exact le_trans (length_le_harvestStep links a) (ih _)

theorem mem_harvestFrom :
    ∀ (as : List (Option Str)) (links : List Str) (x : Str),
      x ∈ links → x ∈ harvestFrom links as := by
  intro as
  induction as with
  | nil => intro links x h; exact h
  | cons a rest ih =>
    intro links x h
    rw [harvestFrom_cons]
    apply ih
    rcases a with _ | href
    · exact h
    · rw [harvestStep_some]
      split
      · exact mem_insertLink_of_mem _ _ _ h
      · exact h

theorem harvestFrom_eq_of_mem :
    ∀ (as : List (Option Str)) (links : List Str),
      (∀ href, some href ∈ as →
        href ≠ [] ∧ strContains href ("/jobs/view/".data) = true →
        cleanLink href ∈ links) →
      harvestFrom links as = links := by
  intro as
  induction as with
  | nil => intro links _; rfl
  | cons a rest ih =>
    intro links h
    rw [harvestFrom_cons]
    have hstep : harvestStep links a = links := by
      rcases a with _ | href
      · rfl
      · rw [harvestStep_some]
        split
        · exact insertLink_eq_of_mem _ _
            (h href (by simp) (by assumption))
        · rfl
    rw [hstep]
    exact ih links (fun href hm hc => h href (by simp [hm]) hc)

theorem clean_mem_harvestFrom :
    ∀ (as : List (Option Str)) (links : List Str) (href : Str),
      some href ∈ as →
      href ≠ [] ∧ strContains href ("/jobs/view/".data) = true →
      cleanLink href ∈ harvestFrom links as := by
  intro as
  induction as with
  | nil => intro links href hm _; simp at hm
  | cons a rest ih =>
    intro links href hm hc
    rw [harvestFrom_cons]
    rcases List.mem_cons.mp hm with h | h
    · subst h
      apply mem_harvestFrom
      rw [harvestStep_some, if_pos hc]
      exact mem_insertLink_self _ _
    · exact ih _ href h hc

theorem nodup_harvestFrom :
    ∀ (as : List (Option Str)) (links : List Str),
      links.Nodup → (harvestFrom links as).Nodup := by
  intro as
  induction as with
  | nil => intro links h; exact h
  | cons a rest ih =>
    intro links h
    rw [harvestFrom_cons]
    apply ih
    rcases a with _ | href
    · exact h
    · rw [harvestStep_some]
      split
      · exact insertLink_nodup _ _ h
      · exact h

theorem scanAnchors_eq_harvestFrom (max_links : Nat) :
    ∀ (as : List (Option Str)) (links : List Str),
      (harvestFrom links as).length < max_links →
      scanAnchors max_links as links = harvestFrom links as := by
  intro as
  induction as with
  | nil => intro links _; rfl
  | cons a rest ih =>
    intro links h
    rcases a with _ | href
    · rw [scanAnchors, harvestFrom_cons, harvestStep_none]
      rw [harvestFrom_cons, harvestStep_none] at h
      exact ih links h
    · rw [scanAnchors]
      rw [harvestFrom_cons, harvestStep_some] at h ⊢
      by_cases hc : href ≠ [] ∧ strContains href ("/jobs/view/".data) = true
      · simp only [if_pos hc] at h ⊢
        have hlt : (insertLink links (cleanLink href)).length < max_links :=
          Nat.lt_of_le_of_lt (length_le_harvestFrom rest _) h
        rw [if_neg (by omega)]
        exact ih _ h
      · simp only [if_neg hc] at h ⊢
        exact ih links h

theorem scanAnchors_length_le (max_links : Nat) :
    ∀ (as : List (Option Str)) (links : List Str),
      links.length < max_links →
      (scanAnchors max_links as links).length ≤ max_links := by
  intro as
  induction as with
  | nil => intro links h; rw [scanAnchors]; omega
  | cons a rest ih =>
    intro links h
    rcases a with _ | href
    · rw [scanAnchors]; exact ih links h
    · rw [scanAnchors]
      by_cases hc : href ≠ [] ∧ strContains href ("/jobs/view/".data) = true
      · rw [if_pos hc]
        have hle := insertLink_length_le links (cleanLink href)
        by_cases hbrk : max_links ≤ (insertLink links (cleanLink href)).length
        · rw [if_pos hbrk]
          omega
        · rw [if_neg hbrk]
          exact ih _ (by omega)
      · rw [if_neg hc]; exact ih links h

theorem scrollLoop_length_le (env : ScrollEnv) (max_links : Nat) :
    ∀ (fuel : Nat) (links : List Str) (lh : Int) (t i : Nat) (r : List Str),
      links.length ≤ max_links →
      scrollLoop env max_links fuel links lh t i = some r →
      r.length ≤ max_links := by
  intro fuel
  induction fuel with
  | zero =>
    intro links lh t i r hle h
    rw [scrollLoop] at h
    split at h
    · simp at h
    · rw [Option.some_inj] at h
      subst h
      exact hle
  | succ f ih =>
    intro links lh t i r hle h
    rw [scrollLoop] at h
    by_cases hcond : links.length < max_links ∧ t < 20
    · rw [if_pos hcond] at h
      have hl2le : (scanAnchors max_links (env.anchors i) links).length ≤
          max_links :=
        scanAnchors_length_le max_links _ links hcond.1
      by_cases hh : env.height i = lh
      · rw [if_pos hh] at h
        exact ih _ lh (t + 1) (i + 1) r hl2le h
      · rw [if_neg hh] at h
        exact ih _ (env.height i) 0 (i + 1) r hl2le h
    · rw [if_neg hcond, Option.some_inj] at h
      subst h
      exact hle

theorem scrollLoop_countdown (env : ScrollEnv) (max_links : Nat)
    (A : List (Option Str)) (h : Int)
    (hA : ∀ i, env.anchors i = A) (hh : ∀ i, env.height i = h)
    (hM : (harvestLinks A).length < max_links)
    (hstab : scanAnchors max_links A (harvestLinks A) = harvestLinks A) :
    ∀ (fuel t i : Nat), t ≤ 20 → 20 - t ≤ fuel →
      scrollLoop env max_links fuel (harvestLinks A) h t i =
        some (harvestLinks A) := by
  intro fuel
  induction fuel with
  | zero =>
    intro t i ht hf
    have ht20 : t = 20 := by omega
    subst ht20
    rw [scrollLoop, if_neg (by omega)]
  | succ f ih =>
    intro t i ht hf
    by_cases ht20 : t = 20
    · subst ht20
      rw [scrollLoop, if_neg (by omega)]
    · rw [scrollLoop, if_pos ⟨hM, by omega⟩, hA i, hstab, hh i, if_pos rfl]
      exact ih (t + 1) (i + 1) (by omega) (by omega)

/-- C4: (a) on a results page that always yields the same fixed anchor set
(whose qualifying links clean to M unique first-seen-ordered links,
M < maxLinks) and whose height never changes, harvesting terminates within
the stagnation bound (21 fuel steps cover at most one height reset plus 20
consecutive no-growth iterations) and returns exactly harvestLinks A: the M
unique links, each once, in first-seen order; (b) on every page, any fuel
and any max_links, a returned collection has at most max_links elements;
(c) harvestLinks A never contains a duplicate. -/
theorem scroll_collect_links_correct :
    (∀ (env : ScrollEnv) (max_links : Nat) (A : List (Option Str)) (h : Int)
      (fuel : Nat),
      (∀ i, env.anchors i = A) → (∀ i, env.height i = h) →
      (harvestLinks A).length < max_links → 21 ≤ fuel →
      scroll_container_collect_links env max_links fuel =
        some (harvestLinks A)) ∧
    (∀ (env : ScrollEnv) (max_links fuel : Nat) (r : List Str),
      scroll_container_collect_links env max_links fuel = some r →
      r.length ≤ max_links) ∧
    (∀ A : List (Option Str), (harvestLinks A).Nodup) := by
  refine ⟨?_, ?_, ?_⟩
  · intro env max_links A h fuel hA hh hM hfuel
    have hstab : scanAnchors max_links A (harvestLinks A) = harvestLinks A := by
      have hfix : harvestFrom (harvestLinks A) A = harvestLinks A := by
        apply harvestFrom_eq_of_mem
        intro href hm hc
        exact clean_mem_harvestFrom A [] href hm hc
      rw [scanAnchors_eq_harvestFrom max_links A (harvestLinks A)
        (by rw [hfix]; exact hM), hfix]
    obtain ⟨f, rfl⟩ : ∃ f, fuel = f + 1 := ⟨fuel - 1, by omega⟩
    rw [scroll_container_collect_links, scrollLoop,
      if_pos ⟨by simpa using Nat.lt_of_le_of_lt (Nat.zero_le _) hM, by omega⟩,
      hA 0, hh 0]
    have hscan0 : scanAnchors max_links A [] = harvestLinks A :=
      scanAnchors_eq_harvestFrom max_links A [] hM
    by_cases h0 : h = env.startHeight
    · rw [if_pos h0, hscan0, ← h0]
      exact scrollLoop_countdown env max_links A h hA hh hM hstab
        f 1 1 (by omega) (by omega)
    · rw [if_neg h0, hscan0]
      exact scrollLoop_countdown env max_links A h hA hh hM hstab
        f 0 1 (by omega) (by omega)
  · intro env max_links fuel r hr
    exact scrollLoop_length_le env max_links fuel [] env.startHeight 0 0 r
      (by simp) hr
  · intro A
    exact nodup_harvestFrom A [] (List.nodup_nil)

/-- Witness for C4 at a concrete static page: two distinct job links plus a
non-matching link, harvested within 21 fuel steps. -/
theorem scroll_collect_links_correct_witness :
    scroll_container_collect_links
      { anchors := fun _ =>
          [some ("https://x/jobs/view/1?ref=a".data),
           some ("https://x/jobs/view/2".data),
           some ("https://x/other".data),
           some ("https://x/jobs/view/1".data), none],
        height := fun _ => 7, startHeight := 3 } 5 21 =
      some (harvestLinks
        [some ("https://x/jobs/view/1?ref=a".data),
         some ("https://x/jobs/view/2".data),
         some ("https://x/other".data),
         some ("https://x/jobs/view/1".data), none]) :=
  (scroll_collect_links_correct).1
    { anchors := fun _ =>
        [some ("https://x/jobs/view/1?ref=a".data),
         some ("https://x/jobs/view/2".data),
         some ("https://x/other".data),
         some ("https://x/jobs/view/1".data), none],
      height := fun _ => 7, startHeight := 3 }
    5 _ 7 21 (fun _ => rfl) (fun _ => rfl) (by decide) (by omega)

/-! ## Application Flow Driver (source lines 245-387)

click_easy_apply_and_fill is modelled over an explicit session: each locator
query the source issues is a field, and each successful browser action is
recorded in an event log. Element fields carry whether the corresponding
Selenium call would raise (clickOk/sendOk), since the source wraps them in
try/except blocks whose control flow matters. -/

/-- A clickable control: its text, visibility, enabledness, and whether a
click on it succeeds (raises no exception). -/
structure Elem where
  text : Str := []
  displayed : Bool := true
  enabled : Bool := true
  clickOk : Bool := true
deriving Repr, DecidableEq, Inhabited

/-- A textarea: the attributes the classifier reads, visibility, and whether
send_keys to it succeeds. -/
structure TArea where
  placeholder : Str := []
  attrName : Str := []
  displayed : Bool := true
  sendOk : Bool := true
deriving Repr, DecidableEq, Inhabited

/-- A contenteditable div: its aria-label, and whether click and send_keys
succeed. -/
structure CEDiv where
  ariaLabel : Str := []
  clickOk : Bool := true
  sendOk : Bool := true
deriving Repr, DecidableEq, Inhabited

/-- A file or phone input: visibility and send_keys success. -/
structure FieldIn where
  displayed : Bool := true
  sendOk : Bool := true
deriving Repr, DecidableEq, Inhabited

/-- The controls of one wizard step, as returned by the three queries of the
step loop (source lines 348-377). -/
structure StepPage where
  submitBtn : Option Elem := none
  nextBtn : Option Elem := none
  contBtn : Option Elem := none
deriving Repr, DecidableEq, Inhabited

/-- One job page and its application dialog as the driver queries them: the
two entry-point locators, the fill-phase element lists, the per-iteration
step pages, and the dismiss control. -/
structure ApplySession where
  easyPrimary : Option Elem := none
  easySecondary : Option Elem := none
  fileInputs : List FieldIn := []
  textareas : List TArea := []
  ceDivs : List CEDiv := []
  phoneInputs : List FieldIn := []
  step : Nat → StepPage := fun _ => {}
  closeBtn : Option Elem := none

/-- The successful browser actions of one driver run, in order. -/
inductive Ev where
  | clickEasy
  | uploadResume (i : Nat)
  | fillTextArea (i : Nat) (text : Str)
  | clickCE (i : Nat)
  | fillCE (i : Nat) (text : Str)
  | fillPhone (i : Nat) (text : Str)
  | clickNext (i : Nat)
  | clickContinue (i : Nat)
  | clickSubmit (i : Nat)
  | clickClose
deriving Repr, DecidableEq

/-- The outcome, by return site of click_easy_apply_and_fill: noEntryPoint
covers the False returns of lines 270-277 (no button found, or its click
raised); autoSubmitted is the True return of line 358; autoSubmitFailed the
False return of line 361; pausedForManualReview the True return of line 366;
abandoned the False return of line 387. -/
inductive Outcome where
  | noEntryPoint
  | autoSubmitted
  | autoSubmitFailed
  | pausedForManualReview
  | abandoned
deriving Repr, DecidableEq

/-- Lowercasing of source lines 303-304, 324, 350. -/
def lowerStr (s : Str) : Str := s.map Char.toLower

/-- The textarea keyword set of source line 305. -/
def kwTextArea : List Str :=
  ["cover".data, "message".data, "note".data, "why".data, "summary".data,
   "additional".data, "about".data]

/-- The contenteditable keyword set of source line 325 (note: smaller than
the textarea set). -/
def kwCE : List Str :=
  ["cover".data, "message".data, "summary".data, "why".data]

/-- Source line 305: some keyword occurs in the lowercased placeholder or in
the lowercased name attribute. -/
def taMatches (ta : TArea) : Bool :=
  kwTextArea.any (fun k =>
    strContains (lowerStr ta.placeholder) k ||
    strContains (lowerStr ta.attrName) k)

/-- Source line 325: some contenteditable keyword occurs in the lowercased
aria-label. -/
def ceMatches (d : CEDiv) : Bool :=
  kwCE.any (fun k => strContains (lowerStr d.ariaLabel) k)

/-- Source lines 286-296: if a resume path is given (truthy), send the file
path to the first displayed file input; a send_keys failure is caught and
uploads nothing. -/
def uploadEvents (s : ApplySession) (resume_path : Str) : List Ev :=
  if resume_path ≠ [] then
    match s.fileInputs.findIdx? (fun fi => fi.displayed) with
    | some i =>
      if (s.fileInputs.getD i default).sendOk then [Ev.uploadResume i]
      else []
    | none => []
  else []

/-- Source lines 298-330: the narrative fill. First loop: the first
keyword-matching textarea gets the cover text (no visibility check); an
exception there aborts the whole try block, skipping the fallback. Fallback
(only when no textarea matched a keyword and some textarea exists): the
first displayed textarea. Then, INDEPENDENTLY of whether a textarea was
filled, when the cover text is non-blank, the first contenteditable div
whose aria-label matches the smaller keyword set is clicked and receives
the cover text truncated to 1000 characters (a click failure aborts that
loop silently). -/
def coverTAEvents (s : ApplySession) (cover_text : Str) : List Ev :=
  match s.textareas.findIdx? taMatches with
  | some i =>
    if (s.textareas.getD i default).sendOk then
      [Ev.fillTextArea i cover_text]
    else []
  | none =>
    if s.textareas ≠ [] then
      match s.textareas.findIdx? (fun ta => ta.displayed) with
      | some i =>
        if (s.textareas.getD i default).sendOk then
          [Ev.fillTextArea i cover_text]
        else []
      | none => []
    else []

/-- The contenteditable block of source lines 320-330: guarded only by the
cover text being non-blank, NOT by whether a textarea was already filled. -/
def coverCEEvents (s : ApplySession) (cover_text : Str) : List Ev :=
  if pyStrip cover_text ≠ [] then
    match s.ceDivs.findIdx? ceMatches with
    | some i =>
      if (s.ceDivs.getD i default).clickOk then
        if (s.ceDivs.getD i default).sendOk then
          [Ev.clickCE i, Ev.fillCE i (cover_text.take 1000)]
        else [Ev.clickCE i]
      else []
    | none => []
  else []

def coverEvents (s : ApplySession) (cover_text : Str) : List Ev :=
  if cover_text ≠ [] then
    coverTAEvents s cover_text ++ coverCEEvents s cover_text
  else []

/-- Source lines 332-341: fill the first displayed phone-like input. -/
def phoneEvents (s : ApplySession) (phone : Str) : List Ev :=
  if phone ≠ [] then
    match s.phoneInputs.findIdx? (fun ip => ip.displayed) with
    | some i =>
      if (s.phoneInputs.getD i default).sendOk then [Ev.fillPhone i phone]
      else []
    | none => []
  else []

/-- Source lines 349-351: the button text check on the found terminal
control. The locator already requires a Submit/Apply/Done span, and the code
re-checks the lowercased button text for submit/apply/done. -/
def submitQualifies (b : Elem) : Bool :=
  ["submit".data, "apply".data, "done".data].any
    (fun k => strContains (lowerStr b.text) k)

/-- The terminal control the step loop acts on at one step: the found submit
button when its text qualifies, otherwise nothing (either the locator raised
or the text check failed; both fall through to Next/Continue). -/
def terminalAt (p : StepPage) : Option Elem :=
  match p.submitBtn with
  | some b => if submitQualifies b then some b else none
  | none => none

/-- A Next/Continue candidate is activated when found, displayed, enabled
and its click does not raise (source lines 371-377); otherwise the loop
tries the next locator. -/
def advClick : Option Elem → Bool
  | some e => e.displayed && e.enabled && e.clickOk
  | none => false

/-- Source lines 381-387: leaving the loop without a terminal control:
best-effort dismiss of the dialog, outcome abandoned. -/
def closeModalBtn (evs : List Ev) : Option Elem → Outcome × List Ev
  | some b =>
    if b.clickOk then (Outcome.abandoned, evs ++ [Ev.clickClose])
    else (Outcome.abandoned, evs)
  | none => (Outcome.abandoned, evs)

def closeModal (s : ApplySession) (evs : List Ev) : Outcome × List Ev :=
  closeModalBtn evs s.closeBtn

/-- The wizard loop of source lines 344-379 (step budget 8): at each step,
look for a qualifying terminal control; if present, pause for manual review
(or activate it when auto_submit); otherwise activate Next, else Continue;
if neither activates, leave the loop to the dismiss path. -/
def stepLoop (s : ApplySession) (auto_submit : Bool) :
    Nat → Nat → List Ev → Outcome × List Ev
  | 0, _, evs => closeModal s evs
  | fuel + 1, i, evs =>
    match terminalAt (s.step i) with
    | some b =>
      if auto_submit then
        if b.clickOk then (Outcome.autoSubmitted, evs ++ [Ev.clickSubmit i])
        else (Outcome.autoSubmitFailed, evs)
      else (Outcome.pausedForManualReview, evs)
    | none =>
      if advClick (s.step i).nextBtn then
        stepLoop s auto_submit fuel (i + 1) (evs ++ [Ev.clickNext i])
      else if advClick (s.step i).contBtn then
        stepLoop s auto_submit fuel (i + 1) (evs ++ [Ev.clickContinue i])
      else closeModal s evs

/-- Source lines 259-269: the entry-point resolution: the primary locator,
then on failure the looser secondary locator (a WebElement is always truthy
in Python, so only a double failure yields None). -/
def easyBtn (s : ApplySession) : Option Elem :=
  match s.easyPrimary with
  | some b => some b
  | none => s.easySecondary

/-- click_easy_apply_and_fill (source lines 252-387): resolve the entry
point (give up when absent or when its click raises), perform the three
best-effort fill phases, then run the wizard loop with budget 8. -/
def click_easy_apply_and_fill (s : ApplySession)
    (resume_path cover_text phone : Str) (auto_submit : Bool) :
    Outcome × List Ev :=
  match easyBtn s with
  | none => (Outcome.noEntryPoint, [])
  | some b =>
    if b.clickOk then
      stepLoop s auto_submit 8 0
        ([Ev.clickEasy] ++ uploadEvents s resume_path ++
          coverEvents s cover_text ++ phoneEvents s phone)
    else (Outcome.noEntryPoint, [])

/-- The run reaches a qualifying terminal control at step i: i is within the
step budget, step i shows a qualifying terminal control, and every earlier
step shows none and has an activatable Next or Continue control. -/
def reachesTerminal (s : ApplySession) (i : Nat) : Prop :=
  i < 8 ∧ (∃ b, terminalAt (s.step i) = some b) ∧
  ∀ j, j < i → terminalAt (s.step j) = none ∧
    (advClick (s.step j).nextBtn = true ∨ advClick (s.step j).contBtn = true)

theorem stepLoop_succ_terminal (s : ApplySession) (auto : Bool)
    (fuel i : Nat) (evs : List Ev) (b : Elem)
    (hb : terminalAt (s.step i) = some b) :
    stepLoop s auto (fuel + 1) i evs =
      if auto then
        if b.clickOk then (Outcome.autoSubmitted, evs ++ [Ev.clickSubmit i])
        else (Outcome.autoSubmitFailed, evs)
      else (Outcome.pausedForManualReview, evs) := by
  rw [stepLoop, hb]

theorem stepLoop_succ_advance (s : ApplySession) (auto : Bool)
    (fuel i : Nat) (evs : List Ev)
    (hterm : terminalAt (s.step i) = none) :
    stepLoop s auto (fuel + 1) i evs =
      if advClick (s.step i).nextBtn then
        stepLoop s auto fuel (i + 1) (evs ++ [Ev.clickNext i])
      else if advClick (s.step i).contBtn then
        stepLoop s auto fuel (i + 1) (evs ++ [Ev.clickContinue i])
      else closeModal s evs := by
  rw [stepLoop, hterm]

theorem closeModal_no_submit (s : ApplySession) (evs : List Ev)
    (h : ∀ k, Ev.clickSubmit k ∉ evs) :
    ∀ k, Ev.clickSubmit k ∉ (closeModal s evs).2 := by
  intro k
  rw [closeModal]
  cases s.closeBtn with
  | none => exact h k
  | some b =>
    rw [closeModalBtn]
    by_cases hck : b.clickOk = true
    · rw [if_pos hck]
      intro hk
      rcases List.mem_append.mp hk with hm | hm
      · exact h k hm
      · simp at hm
    · rw [if_neg hck]
      exact h k

theorem stepLoop_no_submit (s : ApplySession) :
    ∀ (fuel i : Nat) (evs : List Ev),
      (∀ k, Ev.clickSubmit k ∉ evs) →
      ∀ k, Ev.clickSubmit k ∉ (stepLoop s false fuel i evs).2 := by
  intro fuel
  induction fuel with
  | zero =>
    intro i evs h k
    exact closeModal_no_submit s evs h k
  | succ f ih =>
    intro i evs h k
    cases hterm : terminalAt (s.step i) with
    | some b =>
      rw [stepLoop_succ_terminal s false f i evs b hterm,
        if_neg Bool.false_ne_true]
      exact h k
    | none =>
      rw [stepLoop_succ_advance s false f i evs hterm]
      by_cases hn : advClick (s.step i).nextBtn = true
      · rw [if_pos hn]
        apply ih
        intro k2 hk2
        rcases List.mem_append.mp hk2 with hm | hm
        · exact h k2 hm
        · simp at hm
      · rw [if_neg hn]
        by_cases hc : advClick (s.step i).contBtn = true
        · rw [if_pos hc]
          apply ih
          intro k2 hk2
          rcases List.mem_append.mp hk2 with hm | hm
          · exact h k2 hm
          · simp at hm
        · rw [if_neg hc]
          exact closeModal_no_submit s evs h k

theorem uploadEvents_shape (s : ApplySession) (rp : Str) :
    ∀ e ∈ uploadEvents s rp, ∃ i, e = Ev.uploadResume i := by
  intro e he
  simp only [uploadEvents] at he
  split at he
  · split at he
    · split at he
      · simp at he
        exact ⟨_, he⟩
      · simp at he
    · simp at he
  · simp at he

theorem coverTAEvents_shape (s : ApplySession) (ct : Str) :
    ∀ e ∈ coverTAEvents s ct, ∃ i, e = Ev.fillTextArea i ct := by
  intro e he
  simp only [coverTAEvents] at he
  split at he
  · split at he
    · simp at he
      exact ⟨_, he⟩
    · simp at he
  · split at he
    · split at he
      · split at he
        · simp at he
          exact ⟨_, he⟩
        · simp at he
      · simp at he
    · simp at he

theorem coverCEEvents_shape (s : ApplySession) (ct : Str) :
    ∀ e ∈ coverCEEvents s ct,
      (∃ i, e = Ev.clickCE i) ∨ ∃ i, e = Ev.fillCE i (ct.take 1000) := by
  intro e he
  simp only [coverCEEvents] at he
  split at he
  · split at he
    · split at he
      · split at he
        · simp at he
          rcases he with h | h
          · exact Or.inl ⟨_, h⟩
          · exact Or.inr ⟨_, h⟩
        · simp at he
          exact Or.inl ⟨_, he⟩
      · simp at he
    · simp at he
  · simp at he

theorem phoneEvents_shape (s : ApplySession) (ph : Str) :
    ∀ e ∈ phoneEvents s ph, ∃ i t, e = Ev.fillPhone i t := by
  intro e he
  simp only [phoneEvents] at he
  split at he
  · split at he
    · split at he
      · simp at he
        exact ⟨_, _, he⟩
      · simp at he
    · simp at he
  · simp at he

theorem initialEvents_no_submit (s : ApplySession) (rp ct ph : Str) :
    ∀ k, Ev.clickSubmit k ∉
      ([Ev.clickEasy] ++ uploadEvents s rp ++ coverEvents s ct ++
        phoneEvents s ph) := by
  intro k hk
  simp only [List.mem_append] at hk
  rcases hk with ((hk | hk) | hk) | hk
  · simp at hk
  · obtain ⟨i, hi⟩ := uploadEvents_shape s rp _ hk
    simp at hi
  · simp only [coverEvents] at hk
    split at hk
    · rcases List.mem_append.mp hk with hm | hm
      · obtain ⟨i, hi⟩ := coverTAEvents_shape s ct _ hm
        simp at hi
      · rcases coverCEEvents_shape s ct _ hm with ⟨i, hi⟩ | ⟨i, hi⟩ <;>
          simp at hi
    · simp at hk
  · obtain ⟨i, t, hi⟩ := phoneEvents_shape s ph _ hk
    simp at hi

/-- C8: when no activatable entry point exists (both locators fail, or the
found control's click raises), the driver reports the no-entry-point outcome
and performs no action at all: no field fill, no step-loop click. -/
theorem no_entry_point_no_actions (s : ApplySession)
    (resume_path cover_text phone : Str) (auto_submit : Bool)
    (h : easyBtn s = none ∨ ∃ b, easyBtn s = some b ∧ b.clickOk = false) :
    click_easy_apply_and_fill s resume_path cover_text phone auto_submit =
      (Outcome.noEntryPoint, []) := by
  rcases h with h | ⟨b, hb, hc⟩
  · simp only [click_easy_apply_and_fill, h]
  · simp only [click_easy_apply_and_fill, hb, hc]
    simp

/-- Witness for C8: the secondary locator finds a button whose click
raises. -/
theorem no_entry_point_no_actions_witness :
    click_easy_apply_and_fill
      { easySecondary := some { clickOk := false } }
      ("r".data) ("c".data) ("p".data) true =
      (Outcome.noEntryPoint, []) :=
  no_entry_point_no_actions
    { easySecondary := some { clickOk := false } }
    ("r".data) ("c".data) ("p".data) true
    (Or.inr ⟨{ clickOk := false }, rfl, rfl⟩)

theorem stepLoop_reaches_paused (s : ApplySession) :
    ∀ (n fuel i : Nat) (evs : List Ev), n < fuel →
      (∃ b, terminalAt (s.step (i + n)) = some b) →
      (∀ m, m < n → terminalAt (s.step (i + m)) = none ∧
        (advClick (s.step (i + m)).nextBtn = true ∨
         advClick (s.step (i + m)).contBtn = true)) →
      (stepLoop s false fuel i evs).1 = Outcome.pausedForManualReview := by
  intro n
  induction n with
  | zero =>
    intro fuel i evs hf hterm _
    obtain ⟨b, hb⟩ := hterm
    rw [Nat.add_zero] at hb
    obtain ⟨f, rfl⟩ : ∃ f, fuel = f + 1 := ⟨fuel - 1, by omega⟩
    rw [stepLoop_succ_terminal s false f i evs b hb,
      if_neg Bool.false_ne_true]
  | succ nn ih =>
    intro fuel i evs hf hterm hmin
    obtain ⟨f, rfl⟩ : ∃ f, fuel = f + 1 := ⟨fuel - 1, by omega⟩
    have h0 := hmin 0 (Nat.succ_pos nn)
    rw [Nat.add_zero] at h0
    rw [stepLoop_succ_advance s false f i evs h0.1]
    have harg1 : ∃ b, terminalAt (s.step (i + 1 + nn)) = some b := by
      rw [show i + 1 + nn = i + (nn + 1) by omega]
      exact hterm
    have harg2 : ∀ m, m < nn → terminalAt (s.step (i + 1 + m)) = none ∧
        (advClick (s.step (i + 1 + m)).nextBtn = true ∨
         advClick (s.step (i + 1 + m)).contBtn = true) := by
      intro m hm
      rw [show i + 1 + m = i + (m + 1) by omega]
      exact hmin (m + 1) (by omega)
    by_cases hn : advClick (s.step i).nextBtn = true
    · rw [if_pos hn]
      exact ih f (i + 1) _ (by omega) harg1 harg2
    · have hc : advClick (s.step i).contBtn = true := by
        rcases h0.2 with h | h
        · exact absurd h hn
        · exact h
      rw [if_neg hn, if_pos hc]
      exact ih f (i + 1) _ (by omega) harg1 harg2

/-- C1: with auto_submit disabled, (a) the driver never clicks a terminal
control in any run, whatever the page; and (b) in every run whose entry
point activates and whose step loop reaches a qualifying terminal control
(label containing submit/apply/done) at some step, the reported outcome is
pausedForManualReview. -/
theorem driver_pauses_without_submitting (s : ApplySession)
    (resume_path cover_text phone : Str) :
    (∀ k, Ev.clickSubmit k ∉
      (click_easy_apply_and_fill s resume_path cover_text phone false).2) ∧
    (∀ b i, easyBtn s = some b → b.clickOk = true → reachesTerminal s i →
      (click_easy_apply_and_fill s resume_path cover_text phone false).1 =
        Outcome.pausedForManualReview) := by
  constructor
  · intro k
    cases hb : easyBtn s with
    | none =>
      simp only [click_easy_apply_and_fill, hb]
      simp
    | some b =>
      by_cases hck : b.clickOk = true
      · simp only [click_easy_apply_and_fill, hb, if_pos hck]
        exact stepLoop_no_submit s 8 0 _
          (initialEvents_no_submit s resume_path cover_text phone) k
      · simp only [click_easy_apply_and_fill, hb, if_neg hck]
        simp
  · intro b i hb hck hreach
    obtain ⟨hi8, hterm, hmin⟩ := hreach
    simp only [click_easy_apply_and_fill, hb, if_pos hck]
    apply stepLoop_reaches_paused s i 8 0 _ hi8
    · simpa using hterm
    · simpa using hmin

/-- The session of the spec's pause scenario: Next controls at steps 0 and
1, a terminal control labelled Submit application at step 2. -/
def pauseSession : ApplySession :=
  { easyPrimary := some {},
    step := fun i =>
      if i < 2 then { nextBtn := some {} }
      else if i = 2 then
        { submitBtn := some { text := "Submit application".data } }
      else {} }

/-- Witness for C1: the terminal control appears at step 3 of 8 (index 2)
with auto-submit disabled; the outcome is the pause for manual review. -/
theorem driver_pauses_without_submitting_witness :
    (click_easy_apply_and_fill pauseSession [] [] [] false).1 =
      Outcome.pausedForManualReview :=
  (driver_pauses_without_submitting pauseSession [] [] []).2
    {} 2 rfl rfl
    ⟨by omega, ⟨{ text := "Submit application".data }, by decide⟩, by decide⟩

theorem closeModal_extends (s : ApplySession) (evs : List Ev) :
    ∃ tail, (closeModal s evs).2 = evs ++ tail := by
  rw [closeModal]
  cases s.closeBtn with
  | none => exact ⟨[], by simp [closeModalBtn]⟩
  | some b =>
    rw [closeModalBtn]
    by_cases hck : b.clickOk = true
    · exact ⟨[Ev.clickClose], by rw [if_pos hck]⟩
    · exact ⟨[], by rw [if_neg hck]; simp⟩

theorem stepLoop_extends (s : ApplySession) (auto : Bool) :
    ∀ (fuel i : Nat) (evs : List Ev),
      ∃ tail, (stepLoop s auto fuel i evs).2 = evs ++ tail := by
  intro fuel
  induction fuel with
  | zero => intro i evs; exact closeModal_extends s evs
  | succ f ih =>
    intro i evs
    cases hterm : terminalAt (s.step i) with
    | some b =>
      rw [stepLoop_succ_terminal s auto f i evs b hterm]
      by_cases ha : auto = true
      · rw [if_pos ha]
        by_cases hck : b.clickOk = true
        · exact ⟨[Ev.clickSubmit i], by rw [if_pos hck]⟩
        · exact ⟨[], by rw [if_neg hck]; simp⟩
      · exact ⟨[], by rw [if_neg ha]; simp⟩
    | none =>
      rw [stepLoop_succ_advance s auto f i evs hterm]
      by_cases hn : advClick (s.step i).nextBtn = true
      · rw [if_pos hn]
        obtain ⟨tail, ht⟩ := ih (i + 1) (evs ++ [Ev.clickNext i])
        exact ⟨[Ev.clickNext i] ++ tail, by rw [ht, List.append_assoc]⟩
      · rw [if_neg hn]
        by_cases hc : advClick (s.step i).contBtn = true
        · rw [if_pos hc]
          obtain ⟨tail, ht⟩ := ih (i + 1) (evs ++ [Ev.clickContinue i])
          exact ⟨[Ev.clickContinue i] ++ tail, by rw [ht, List.append_assoc]⟩
        · rw [if_neg hc]
          exact closeModal_extends s evs

theorem pyStrip_ne_nil_of (ct : Str) (h : pyStrip ct ≠ []) : ct ≠ [] := by
  intro hc
  rw [hc] at h
  exact h rfl

/-- A session with one keyword-matching textarea AND one keyword-matching
contenteditable div: the code fills both. -/
def doubleFillSession : ApplySession :=
  { easyPrimary := some {},
    textareas := [{ placeholder := "cover letter".data }],
    ceDivs := [{ ariaLabel := "why this role".data }] }

/-- A session with only a contenteditable div whose label contains
additional, a keyword of the claimed shared set but not of the code's
contenteditable set. -/
def extraKeywordSession : ApplySession :=
  { easyPrimary := some {},
    ceDivs := [{ ariaLabel := "additional information".data }] }

/-- C6 counterexample. First run: a textarea accepted the cover text, yet a
rich-text-editable region is ALSO filled (the contenteditable block is
guarded only by the cover text being non-blank, not by the textarea fill),
contradicting the claim that rich-text regions are tried only when no
textarea accepts the text. Second run: a contenteditable region labelled
additional (in the claimed shared keyword set) is NOT filled: the code's
contenteditable keyword set is only cover/message/summary/why; the run
performs no fill action at all. -/
theorem cover_fill_counterexample :
    (Ev.fillTextArea 0 ("I am a fit".data) ∈
      (click_easy_apply_and_fill doubleFillSession []
        ("I am a fit".data) [] false).2) ∧
    (Ev.fillCE 0 (("I am a fit".data).take 1000) ∈
      (click_easy_apply_and_fill doubleFillSession []
        ("I am a fit".data) [] false).2) ∧
    (click_easy_apply_and_fill extraKeywordSession []
      ("hi there".data) [] false).2 = [Ev.clickEasy] := by
  refine ⟨by decide, by decide, by decide⟩

/-- C6 amended: when cover text is provided, the first textarea whose
lowercased placeholder or name attribute contains a keyword of
cover/message/note/why/summary/additional/about receives the cover text (in
preference to any unrelated textarea); only when no textarea matches does
the first visible textarea receive it; and — independently of whether any
textarea accepted the text — whenever the cover text is non-blank, the
first rich-text-editable region whose aria-label matches the SMALLER set
cover/message/summary/why is clicked and receives the cover text truncated
to 1000 characters. In every run whose entry point activates, these fill
events appear in the driver's event log right after the entry click and the
resume upload. -/
theorem cover_fill_amended (s : ApplySession) (rp ct ph : Str)
    (auto : Bool) :
    (∀ i, s.textareas.findIdx? taMatches = some i → ct ≠ [] →
      (s.textareas.getD i default).sendOk = true →
      coverEvents s ct = Ev.fillTextArea i ct :: coverCEEvents s ct) ∧
    (s.textareas.findIdx? taMatches = none → ct ≠ [] →
      ∀ i, s.textareas.findIdx? (fun ta => ta.displayed) = some i →
        (s.textareas.getD i default).sendOk = true →
        coverEvents s ct = Ev.fillTextArea i ct :: coverCEEvents s ct) ∧
    (∀ i, pyStrip ct ≠ [] → s.ceDivs.findIdx? ceMatches = some i →
      (s.ceDivs.getD i default).clickOk = true →
      (s.ceDivs.getD i default).sendOk = true →
      Ev.fillCE i (ct.take 1000) ∈ coverEvents s ct) ∧
    (∀ b, easyBtn s = some b → b.clickOk = true →
      ∃ tail, (click_easy_apply_and_fill s rp ct ph auto).2 =
        [Ev.clickEasy] ++ uploadEvents s rp ++ coverEvents s ct ++
          phoneEvents s ph ++ tail) := by
  refine ⟨?_, ?_, ?_, ?_⟩
  · intro i hidx hct hsend
    rw [coverEvents, if_pos hct, coverTAEvents, hidx]
    show (if (s.textareas.getD i default).sendOk = true
        then [Ev.fillTextArea i ct] else []) ++ coverCEEvents s ct =
      Ev.fillTextArea i ct :: coverCEEvents s ct
    rw [if_pos hsend]
    rfl
  · intro hidx hct i hdisp hsend
    have hne : s.textareas ≠ [] := by
      intro h
      rw [h] at hdisp
      simp [List.findIdx?] at hdisp
    rw [coverEvents, if_pos hct, coverTAEvents, hidx]
    show (if s.textareas ≠ [] then
        match List.findIdx? (fun ta => ta.displayed) s.textareas with
        | some i => if (s.textareas.getD i default).sendOk = true
            then [Ev.fillTextArea i ct] else []
        | none => []
      else []) ++ coverCEEvents s ct = _
    rw [if_pos hne, hdisp]
    show (if (s.textareas.getD i default).sendOk = true
        then [Ev.fillTextArea i ct] else []) ++ coverCEEvents s ct = _
    rw [if_pos hsend]
    rfl
  · intro i hstrip hce hclick hsend
    have hct : ct ≠ [] := pyStrip_ne_nil_of ct hstrip
    rw [coverEvents, if_pos hct]
    apply List.mem_append.mpr
    right
    rw [coverCEEvents, if_pos hstrip, hce]
    show Ev.fillCE i (ct.take 1000) ∈
      (if (s.ceDivs.getD i default).clickOk = true then
        if (s.ceDivs.getD i default).sendOk = true then
          [Ev.clickCE i, Ev.fillCE i (ct.take 1000)]
        else [Ev.clickCE i]
      else [])
    rw [if_pos hclick, if_pos hsend]
    simp
  · intro b hb hck
    simp only [click_easy_apply_and_fill, hb, if_pos hck]
    obtain ⟨tail, ht⟩ := stepLoop_extends s auto 8 0
      ([Ev.clickEasy] ++ uploadEvents s rp ++ coverEvents s ct ++
        phoneEvents s ph)
    exact ⟨tail, by rw [ht]⟩

/-- The session of the spec's narrative scenario: an unrelated first
textarea and a second one whose placeholder contains Why are you a fit. -/
def coverWitnessSession : ApplySession :=
  { easyPrimary := some {},
    textareas := [{ placeholder := "your name".data },
                  { placeholder := "Why are you a fit".data }] }

/-- Witness for the amended C6: the keyword-matching textarea (index 1)
receives the cover text, not the unrelated first one. -/
theorem cover_fill_amended_witness :
    coverEvents coverWitnessSession ("hello".data) =
      Ev.fillTextArea 1 ("hello".data) ::
        coverCEEvents coverWitnessSession ("hello".data) :=
  (cover_fill_amended coverWitnessSession [] ("hello".data) [] false).1 1
    (by decide) (by decide) (by decide)

end LinkedinHelper
